import Mathlib

/-!
# hall-pass decision engine — verification of the specification claims

Shallow embedding of the hall-pass pre-execution authorization hook
(TypeScript sources under `src/`).  Pure functions of the engine are
translated to Lean definitions; the two external dependencies that the
engine consults — the `Bun.Glob` path matcher and the `pgsql-ast-parser`
SQL parser — are abstracted as function parameters (`String → String →
Bool` for glob matching against a resolved path, and `String → Option
(List String)` returning the list of top-level statement kinds, `none`
on a parse exception).
-/

namespace HallPass

/-- The `name`/`value` pair of an inline shell assignment (`FOO=bar ls`),
from `parser.ts` (`assigns`). -/
structure Assign where
  name : String
  value : String
deriving DecidableEq, Repr

/-- A parsed command invocation, from `parser.ts` (`CommandInfo`):
`name` is the basename of the program, `args` is the argv list starting
with the name, `assigns` the inline variable assignments. -/
structure CommandInfo where
  name : String
  args : List String
  assigns : List Assign
deriving DecidableEq, Repr

/-- Result of evaluating one invocation, from `evaluate.ts`
(`EvalResult`): `allow` with a reason, `prompt` (ask) with a reason, or
`feedback` (ask plus a suggestion surfaced to the assistant). -/
inductive EvalResult where
  | allow (reason : String)
  | prompt (reason : String)
  | feedback (suggestion : String)
deriving DecidableEq, Repr

/-- Returns `true` exactly on `allow` results. -/
def EvalResult.isAllow : EvalResult → Bool
  | .allow _ => true
  | _ => false

/-- JS `String.prototype.startsWith`, modelled on the character list
(used for every `startsWith` of the source, so that prefix facts can be
reasoned about uniformly). -/
def strStartsWith (s pre : String) : Bool :=
  pre.toList.isPrefixOf s.toList

/-- JS `String.prototype.endsWith`, modelled on the character list. -/
def strEndsWith (s suf : String) : Bool :=
  suf.toList.isSuffixOf s.toList

/-- JS string-truthiness of a nullable string: non-null and non-empty. -/
def jsTruthy : Option String → Bool
  | some s => s ≠ ""
  | none => false

/-- Substring occurrence on character lists. -/
def listInfix (pat : List Char) : List Char → Bool
  | [] => pat.isEmpty
  | a :: rest => pat.isPrefixOf (a :: rest) || listInfix pat rest

/-- JS `String.prototype.includes`, modelled on the character list. -/
def strIncludes (s pat : String) : Bool :=
  listInfix pat.toList s.toList

/-- JS `String.prototype.trim`, modelled on the character list. -/
def strTrim (s : String) : String :=
  (((s.toList.dropWhile Char.isWhitespace).reverse.dropWhile
      Char.isWhitespace).reverse).asString

/-- JS `String.prototype.toLowerCase` (ASCII), modelled on the
character list. -/
def strToLower (s : String) : String :=
  (s.toList.map Char.toLower).asString

/-- Leading run of characters satisfying `p` (the anchored-regex
captures of the source), modelled on the character list. -/
def strTakeWhile (s : String) (p : Char → Bool) : String :=
  (s.toList.takeWhile p).asString

/-- Drop the trailing run of characters satisfying `p`, modelled on the
character list. -/
def strDropRightWhile (s : String) (p : Char → Bool) : String :=
  ((s.toList.reverse.dropWhile p).reverse).asString

/-- Split on a single-character separator (the source's
`String.prototype.split` at its `:` and `=` call sites), modelled on
the character list. -/
def splitOnCharAux (sep : Char) : List Char → List (List Char)
  | [] => [[]]
  | c :: cs =>
    if c = sep then [] :: splitOnCharAux sep cs
    else
      match splitOnCharAux sep cs with
      | [] => [[c]]
      | h :: t => (c :: h) :: t

/-- JS `String.prototype.split` on a one-character separator. -/
def strSplitChar (s : String) (sep : Char) : List String :=
  (splitOnCharAux sep s.toList).map List.asString

/-- JS regex `/^-n\d/`: `-n` followed by a digit. -/
def matchDashNDigit (s : String) : Bool :=
  match s.toList with
  | '-' :: 'n' :: c :: _ => c.isDigit
  | _ => false

/-- JS regex `/^-\d+$/`: a dash followed by one or more digits only. -/
def matchDashDigits (s : String) : Bool :=
  match s.toList with
  | '-' :: c :: cs => c.isDigit && cs.all Char.isDigit
  | _ => false

/-- JS regex `/^-[A-Z]+$/`: a dash followed by one or more uppercase
letters only. -/
def matchDashUpper (s : String) : Bool :=
  match s.toList with
  | '-' :: c :: cs => (c.isUpper && cs.all Char.isUpper)
  | _ => false

/-! ## Wrapper unwrapper (`wrappers.ts`) -/

/-- The `nohup` flag skipper: no flags, the inner command is arg 0 of the
tail. -/
def nohupSkip (_rest : List String) : Option Nat := some 0

/-- The `nice` flag skipper, from `wrappers.ts`: optional `-n N`,
`--adjustment N`, `-nN`, `--adjustment=N`, or BSD `-N`. -/
def niceSkip (rest : List String) : Option Nat :=
  let i : Nat :=
    match rest.head? with
    | none => 0
    | some a =>
      if a = "-n" || a = "--adjustment" then 2
      else if matchDashNDigit a then 1
      else if strStartsWith a "--adjustment=" then 1
      else if matchDashDigits a then 1
      else 0
  if i < rest.length then some i else none

/-- Length of the leading run of `timeout` flags, from `wrappers.ts`:
two-arg `-s`, `--signal`, `-k`, `--kill-after`, combined `--signal=`,
`--kill-after=`, `-k=`, and the boolean flags. -/
def timeoutFlags : List String → Nat
  | [] => 0
  | a :: rest =>
    if a = "-s" || a = "--signal" || a = "-k" || a = "--kill-after" then
      2 + timeoutFlags (rest.drop 1)
    else if strStartsWith a "--signal=" || strStartsWith a "--kill-after=" || strStartsWith a "-k=" then
      1 + timeoutFlags rest
    else if a = "--preserve-status" || a = "--foreground" || a = "-v" || a = "--verbose" then
      1 + timeoutFlags rest
    else 0
termination_by l => l.length
decreasing_by
  · simp [List.length_drop]; omega
  · simp
  · simp

/-- The `timeout` flag skipper, from `wrappers.ts`: skip flags, then one
positional DURATION, then the inner command. -/
def timeoutSkip (rest : List String) : Option Nat :=
  let i := timeoutFlags rest
  let i := if i < rest.length then i + 1 else i
  if i < rest.length then some i else none

/-- The transparent-wrapper table of `wrappers.ts`
(`TRANSPARENT_WRAPPERS`), as a lookup from the command name to its
flag-skipping rule. -/
def TRANSPARENT_WRAPPERS (name : String) : Option (List String → Option Nat) :=
  if name = "nohup" then some nohupSkip
  else if name = "nice" then some niceSkip
  else if name = "timeout" then some timeoutSkip
  else none

/-- The `unwrapCommand` from `wrappers.ts`: if the invocation names a
transparent wrapper, strip the wrapper and its flags and recurse on the
inner command; otherwise (or when no inner command is discernible)
return the invocation unchanged.  `assigns` pass through. -/
def unwrapCommand (c : CommandInfo) : CommandInfo :=
  match TRANSPARENT_WRAPPERS c.name with
  | none => c
  | some skipper =>
    let rest := c.args.drop 1
    match skipper rest with
    | none => c
    | some innerStart =>
      if h : innerStart ≥ rest.length then c
      else
        match hdrop : rest.drop innerStart with
        | [] => c
        | innerName :: innerTail =>
          unwrapCommand { name := innerName, args := innerName :: innerTail, assigns := c.assigns }
termination_by c.args.length
decreasing_by
  have hlen : (rest.drop innerStart).length = rest.length - innerStart := List.length_drop ..
  rw [hdrop] at hlen
  simp only [List.length_cons] at hlen
  have hrest : rest.length = c.args.length - 1 := by
    simp [rest, List.length_drop]
  simp only [not_le] at h
  simp only [List.length_cons]
  omega

/-! ## Safe-command registry (`safelist.ts`) -/

/-- Commands auto-approved with no argument inspection
(`SAFE_COMMANDS` in `safelist.ts`). -/
def SAFE_COMMANDS : List String :=
  [ "gh",
    "bun", "npm", "npx",
    "lsof", "sleep",
    "curl", "wget",
    "grep", "egrep", "fgrep", "rg", "sort", "uniq",
    "tr", "cut", "wc", "head", "tail", "tee", "jq",
    "ls", "cat", "cp", "mv", "mkdir", "touch", "diff",
    "file", "stat", "strings", "realpath", "basename", "dirname",
    "echo", "printf", "pwd", "which", "whoami", "test", "true", "false",
    "cd", "pushd", "popd", "export", "set", "unset", "read",
    "date",
    "shfmt" ]

/-- Database clients that get SQL inspection (`DB_CLIENTS`). -/
def DB_CLIENTS : List String := ["psql", "mysql", "sqlite3"]

/-- Environment variables that must never prefix a command
(`DANGEROUS_ENV_VARS`). -/
def DANGEROUS_ENV_VARS : List String :=
  [ "LD_PRELOAD", "LD_LIBRARY_PATH", "DYLD_INSERT_LIBRARIES",
    "DYLD_LIBRARY_PATH", "BASH_ENV", "ENV", "PROMPT_COMMAND" ]

/-! ## Path policy (`paths.ts` and `config.ts`)

`Bun.Glob` matching and filesystem path resolution are external; the
whole test "does glob pattern `pat` match `resolve(expandTilde(path))`"
is abstracted as a matcher parameter `m : String → String → Bool`
applied as `m pat path`. -/

/-- File operation kind, from `paths.ts` (the `"read" | "write" |
"delete"` literals). -/
inductive PathOp where
  | read
  | write
  | delete
deriving DecidableEq, Repr

/-- Outcome of a path check, from `paths.ts` (`PathDecision`). -/
structure PathDecision where
  allowed : Bool
  reason : String
deriving DecidableEq, Repr

/-- The engine-relevant slice of the configuration (`HallPassConfig` in
`config.ts`), with the nested `commands`, `git` and `paths` sections
flattened into one record: `safeCommands` = `commands.safe`,
`dbClients` = `commands.db_clients`, `protectedBranches` =
`git.protected_branches`, and the three path tiers. -/
structure HallPassConfig where
  safeCommands : List String
  dbClients : List String
  protectedBranches : List String
  pathsProtected : List String
  pathsReadOnly : List String
  pathsNoDelete : List String
deriving DecidableEq, Repr

/-- Default protected path globs, always active
(`DEFAULT_PROTECTED_PATHS` in `config.ts`). -/
def DEFAULT_PROTECTED_PATHS : List String :=
  [ "**/.env", "**/.env.*", "**/credentials*", "**/secret*",
    "~/.ssh/**", "~/.aws/**", "~/.gnupg/**", "**/*.pem", "**/*id_rsa*" ]

/-- The zero-config default (`DEFAULT_CONFIG` in `config.ts`). -/
def DEFAULT_CONFIG : HallPassConfig :=
  { safeCommands := []
    dbClients := []
    protectedBranches := []
    pathsProtected := DEFAULT_PROTECTED_PATHS
    pathsReadOnly := []
    pathsNoDelete := [] }

/-- Commands that only read files (`READ_COMMANDS` in `paths.ts`). -/
def READ_COMMANDS : List String :=
  [ "cat", "head", "tail", "less", "more", "file", "stat", "wc", "strings",
    "diff", "md5sum", "sha256sum", "sha1sum", "xxd", "od" ]

/-- Commands that delete files (`DELETE_COMMANDS` in `paths.ts`). -/
def DELETE_COMMANDS : List String := ["rm", "rmdir", "unlink"]

/-- Commands whose positional arguments are file paths
(`PATH_AWARE_COMMANDS` in `paths.ts`). -/
def PATH_AWARE_COMMANDS : List String :=
  [ "cat", "head", "tail", "less", "more", "file", "stat", "wc", "strings",
    "diff", "md5sum", "sha256sum", "sha1sum", "xxd", "od",
    "cp", "mv", "mkdir", "touch", "tee", "ln", "install",
    "rm", "rmdir", "unlink",
    "chmod", "chown", "chgrp" ]

/-- The `isPathAwareCommand` from `paths.ts`. -/
def isPathAwareCommand (name : String) : Bool :=
  PATH_AWARE_COMMANDS.contains name

/-- The `looksLikePath` from `paths.ts`: contains `/`, or starts with `.`
or `~`. -/
def looksLikePath (arg : String) : Bool :=
  strIncludes arg "/" || strStartsWith arg "." || strStartsWith arg "~"

/-- The `checkFilePath` from `paths.ts`: deny on the first matching
`Protected` glob for any operation, else on the first matching
`ReadOnly` glob for write or delete, else on the first matching
`NoDelete` glob for delete, else allow.  `m` is the abstract
resolved-path glob matcher. -/
def checkFilePath (m : String → String → Bool) (filePath : String)
    (operation : PathOp) (config : HallPassConfig) : PathDecision :=
  match config.pathsProtected.find? (fun pat => m pat filePath) with
  | some pat => { allowed := false, reason := "matches protected path " ++ pat }
  | none =>
    match (if operation = .write || operation = .delete then
             config.pathsReadOnly.find? (fun pat => m pat filePath)
           else none) with
    | some pat => { allowed := false, reason := "matches read-only path " ++ pat }
    | none =>
      match (if operation = .delete then
               config.pathsNoDelete.find? (fun pat => m pat filePath)
             else none) with
      | some pat => { allowed := false, reason := "matches no-delete path " ++ pat }
      | none => { allowed := true, reason := "" }

/-- The `getOperationType` from `paths.ts`. -/
def getOperationType (commandName : String) : PathOp :=
  if READ_COMMANDS.contains commandName then .read
  else if DELETE_COMMANDS.contains commandName then .delete
  else .write

/-- Argument walk of `checkCommandPaths`: skip flags and non-path-like
arguments, first denial wins. -/
def checkArgPaths (m : String → String → Bool) (operation : PathOp)
    (config : HallPassConfig) : List String → PathDecision
  | [] => { allowed := true, reason := "" }
  | a :: rest =>
    if strStartsWith a "-" then checkArgPaths m operation config rest
    else if !looksLikePath a then checkArgPaths m operation config rest
    else
      let d := checkFilePath m a operation config
      if !d.allowed then d else checkArgPaths m operation config rest

/-- The `checkCommandPaths` from `paths.ts`: check every path-like
positional argument of the command against the protection tiers. -/
def checkCommandPaths (m : String → String → Bool) (commandInfo : CommandInfo)
    (config : HallPassConfig) : PathDecision :=
  checkArgPaths m (getOperationType commandInfo.name) config (commandInfo.args.drop 1)

/-! ## SQL classifier (`sql.ts`, `psql.ts`, and the sqlite helpers) -/

/-- Statement kinds considered read-only (`READ_ONLY_TYPES` in
`sql.ts`). -/
def READ_ONLY_TYPES : List String := ["select", "with", "show", "values"]

/-- Safe psql backslash meta-commands (`SAFE_PSQL_META_COMMANDS` in
`psql.ts`). -/
def SAFE_PSQL_META_COMMANDS : List String :=
  [ "d", "dt", "di", "ds", "da", "dm", "dv", "dE", "dn", "df", "du",
    "dT", "dp", "dD", "dF", "dx", "dy", "dg", "dO", "db", "dc", "dC",
    "dA", "dL", "do", "des", "det", "dew", "dl",
    "l", "conninfo", "encoding", "timing",
    "pset", "x", "a", "H",
    "echo", "qecho",
    "s",
    "sf", "sv", "ef", "ev",
    "copyright", "errverbose", "z",
    "g",
    "if", "elif", "else", "endif" ]

/-- The `isPsqlMetaCommandSafe` from `psql.ts`: a trimmed input starting
with a backslash is safe iff its leading alphabetic word is in the
allowlist (the trailing-`+` re-check of the source is kept although an
alphabetic-only match can never end in `+`). -/
def isPsqlMetaCommandSafe (input : String) : Bool :=
  let trimmed := strTrim input
  if !(strStartsWith trimmed "\\") then false
  else
    let rest := trimmed.drop 1
    let cmd := strTakeWhile rest Char.isAlpha
    if cmd = "" then false
    else if SAFE_PSQL_META_COMMANDS.contains cmd then true
    else if strEndsWith cmd "+" && SAFE_PSQL_META_COMMANDS.contains (cmd.dropRight 1) then true
    else false

/-- Safe sqlite dot-commands (`SAFE_SQLITE_DOT_COMMANDS` in the sqlite
helper module, `src/unnamed/part_003`). -/
def SAFE_SQLITE_DOT_COMMANDS : List String :=
  [ "schema", "tables", "databases", "indexes", "indices", "fullschema",
    "headers", "mode", "separator", "width", "nullvalue", "print",
    "show", "dbinfo", "dbconfig", "stats", "version", "help", "sha3sum",
    "explain", "eqp", "timer",
    "dump",
    "lint" ]

/-- Leading word of a sqlite dot-command: the JS regex
`([a-zA-Z0-9_]+)` anchored after the dot. -/
def dotCommandWord (trimmed : String) : String :=
  strTakeWhile (trimmed.drop 1) (fun c => c.isAlphanum || c = '_')

/-- The `isSqliteDotCommandSafe` from the sqlite helper module
(`src/unnamed/part_003`): a trimmed input starting with `.` is
read-only iff its leading word (lower-cased) is in the allowlist. -/
def isSqliteDotCommandSafe (input : String) : Bool :=
  let trimmed := strTrim input
  if !(strStartsWith trimmed ".") then false
  else
    let word := dotCommandWord trimmed
    if word = "" then false
    else SAFE_SQLITE_DOT_COMMANDS.contains (strToLower word)

/-- sqlite3 positional-argument collector from `extractSqlFromArgs` in
`sql.ts`: skip the value flags `-cmd`, `-separator`, `-newline` with
their values, skip other `-` flags, keep the rest. -/
def sqlitePositionals : List String → List String
  | [] => []
  | a :: rest =>
    if a = "-cmd" || a = "-separator" || a = "-newline" then
      sqlitePositionals (rest.drop 1)
    else if strStartsWith a "-" then sqlitePositionals rest
    else a :: sqlitePositionals rest
termination_by l => l.length
decreasing_by
  · simp [List.length_drop]; omega
  · simp
  · simp

/-- Flag walk of `extractSqlFromArgs` for psql and mysql: first
`flag=VALUE` match wins, else a bare flag takes the next argument. -/
def sqlFlagWalk (flags : List String) : List String → Option String
  | [] => none
  | a :: rest =>
    match flags.find? (fun f => strStartsWith a (f ++ "=")) with
    | some f => some (a.drop (f.length + 1))
    | none =>
      if flags.contains a then
        match rest with
        | b :: _ => some b
        | [] => none
      else sqlFlagWalk flags rest

/-- The `extractSqlFromArgs` from `sql.ts`: the inline SQL of a DB-client
invocation — `psql -c`/`--command`, `mysql -e`/`--execute`, or the
second positional argument of `sqlite3`; `none` when absent. -/
def extractSqlFromArgs (clientName : String) (args : List String) : Option String :=
  if clientName = "sqlite3" then
    (sqlitePositionals (args.drop 1)).get? 1
  else if clientName = "psql" then
    sqlFlagWalk ["-c", "--command"] (args.drop 1)
  else if clientName = "mysql" then
    sqlFlagWalk ["-e", "--execute"] (args.drop 1)
  else none

/-- The `isSqlReadOnly` from `sql.ts` (the revision in the snapshot):
empty → read-only; leading backslash → psql meta-command allowlist;
otherwise parse and require every top-level statement kind to be in
`READ_ONLY_TYPES`, with a parse failure counting as not read-only.
`parse` abstracts `pgsql-ast-parser`: the list of statement kinds, or
`none` when parsing throws. -/
def isSqlReadOnly (parse : String → Option (List String)) (sql : String) : Bool :=
  let trimmed := strTrim sql
  if trimmed = "" then true
  else if strStartsWith trimmed "\\" then isPsqlMetaCommandSafe trimmed
  else
    match parse trimmed with
    | none => false
    | some statements => statements.all READ_ONLY_TYPES.contains

/-- The `isSqlitePragmaReadOnly` from the sqlite helper module
(`src/unnamed/part_002`): strip trailing semicolons; must start with
`pragma` followed by whitespace (case-insensitively); a setter
(contains `=`) is not read-only. -/
def isSqlitePragmaReadOnly (input : String) : Bool :=
  let trimmed := strTrim input
  let cleaned := strDropRightWhile trimmed (fun c => c = ';')
  let followedByWs :=
    match (cleaned.drop 6).toList.head? with
    | some c => c.isWhitespace
    | none => false
  if !(strStartsWith (strToLower cleaned) "pragma" && followedByWs) then false
  else !strIncludes cleaned "="

/-- Modelled from the spec: the current SQL classifier.  The `sql.ts`
revision that routes sqlite inputs is not in the snapshot — only its
helper modules are — so the dispatch follows §4.6 of the specification:
empty → read-only; leading `\` → psql meta-command check; leading `.` →
sqlite dot-command check (the in-snapshot `isSqliteDotCommandSafe`);
leading `pragma` (case-insensitive) → sqlite pragma check (the
in-snapshot `isSqlitePragmaReadOnly`); otherwise parse as SQL as in the
in-snapshot `isSqlReadOnly`. -/
def isSqlReadOnlyCurrent (parse : String → Option (List String)) (sql : String) : Bool :=
  let trimmed := strTrim sql
  if trimmed = "" then true
  else if strStartsWith trimmed "\\" then isPsqlMetaCommandSafe trimmed
  else if strStartsWith trimmed "." then isSqliteDotCommandSafe trimmed
  else if strStartsWith (strToLower trimmed) "pragma" then isSqlitePragmaReadOnly trimmed
  else
    match parse trimmed with
    | none => false
    | some statements => statements.all READ_ONLY_TYPES.contains

/-- The `dbClientInspect` from `evaluate.ts`: extract the inline SQL and
allow iff it is present, non-empty (JS truthiness of `sql`) and
classifies read-only; otherwise prompt. -/
def dbClientInspect (parse : String → Option (List String))
    (cmdInfo : CommandInfo) : EvalResult :=
  let sql := extractSqlFromArgs cmdInfo.name cmdInfo.args
  let readOnly :=
    match sql with
    | some s => if s ≠ "" then isSqlReadOnly parse s else false
    | none => false
  if jsTruthy sql && readOnly then
    .allow ("db read-only: " ++ cmdInfo.name)
  else
    .prompt ("db client: " ++ cmdInfo.name)

/-! ## Git policy (`git.ts`) -/

/-- Always-safe git subcommands (`SAFE_SUBCOMMANDS` in `git.ts`). -/
def SAFE_SUBCOMMANDS : List String :=
  [ "status", "log", "diff", "show", "branch", "tag", "remote",
    "describe", "rev-parse", "rev-list", "ls-files", "ls-tree",
    "cat-file", "reflog", "shortlog", "blame", "bisect",
    "name-rev", "cherry", "count-objects", "fsck", "verify-pack",
    "whatchanged", "config",
    "add", "commit", "stash", "fetch", "pull", "merge",
    "cherry-pick", "revert", "notes", "worktree",
    "checkout", "switch", "restore",
    "gc", "prune", "repack" ]

/-- Branch-gated git subcommands (`BRANCH_GATED_SUBCOMMANDS`). -/
def BRANCH_GATED_SUBCOMMANDS : List String := ["push", "rebase"]

/-- Protected branch names (`PROTECTED_BRANCHES` in `git.ts`). -/
def PROTECTED_BRANCHES : List String :=
  ["main", "master", "staging", "production", "prod"]

/-- Destructive-flag table (`DESTRUCTIVE_FLAGS` in `git.ts`). -/
def DESTRUCTIVE_FLAGS (subcommand : String) : Option (List String) :=
  if subcommand = "push" then
    some ["--force", "-f", "--force-with-lease", "--force-if-includes"]
  else if subcommand = "reset" then some ["--hard"]
  else if subcommand = "checkout" then some ["."]
  else if subcommand = "restore" then some ["."]
  else if subcommand = "clean" then some ["-f", "-fd", "-fx", "-fxd", "-fdx", "-ff"]
  else if subcommand = "branch" then some ["-D", "--force", "-d"]
  else if subcommand = "stash" then some ["drop", "clear"]
  else none

/-- Always-destructive git subcommands (`ALWAYS_DESTRUCTIVE`). -/
def ALWAYS_DESTRUCTIVE : List String := ["reset", "clean"]

/-- Character walk of the quote-aware tokenizer in `git.ts`
(`tokenize`): single and double quotes toggle, spaces split outside
quotes. -/
def tokenizeAux : List Char → String → Bool → Bool → List String
  | [], current, _, _ => if current ≠ "" then [current] else []
  | ch :: rest, current, inSingle, inDouble =>
    if ch = '\'' && !inDouble then tokenizeAux rest current (!inSingle) inDouble
    else if ch = '"' && !inSingle then tokenizeAux rest current inSingle (!inDouble)
    else if ch = ' ' && !inSingle && !inDouble then
      if current ≠ "" then current :: tokenizeAux rest "" inSingle inDouble
      else tokenizeAux rest "" inSingle inDouble
    else tokenizeAux rest (current.push ch) inSingle inDouble

/-- The `tokenize` from `git.ts`. -/
def tokenize (input : String) : List String :=
  tokenizeAux input.toList "" false false

/-- Pre-subcommand flag skipping of `parseGitCommand` in `git.ts`:
two-arg `-C`, `-c`, `--git-dir`, `--work-tree` consume their value;
other dash arguments are dropped; the walk stops at the first
non-flag. -/
def gitSkipPre : List String → List String
  | [] => []
  | a :: rest =>
    if a = "-C" || a = "-c" || a = "--git-dir" || a = "--work-tree" then
      match rest with
      | [] => []
      | _ :: rest2 => gitSkipPre rest2
    else if strStartsWith a "-" then gitSkipPre rest
    else a :: rest

/-- The `parseGitCommand` from `git.ts`: `(subcommand, flags, rest)` with
flags and positionals split by a leading dash. -/
def parseGitCommand (args : List String) : String × List String × List String :=
  match gitSkipPre args with
  | [] => ("", [], [])
  | sub :: remaining =>
    (sub, remaining.filter (fun a => strStartsWith a "-"),
     remaining.filter (fun a => !(strStartsWith a "-")))

/-- Push/rebase target of a positional argument, from `git.ts`: the
last `:`-separated field (`git push origin HEAD:main`). -/
def gitTarget (arg : String) : String :=
  if strIncludes arg ":" then ((strSplitChar arg ':').getLast?).getD arg else arg

/-- The `isGitCommandSafe` from `git.ts` (the revision in the snapshot,
taking the raw command string): tokenize, drop a leading `git`, parse,
then classify by always-destructive subcommands, destructive flags,
protected-branch targets for push/rebase, and the safe-subcommand
allowlist.  Note: this revision has no `-c key=value` dangerous-config
check. -/
def isGitCommandSafe (fullCommand : String) : Bool :=
  let args0 := tokenize fullCommand
  let args := if args0.head? = some "git" then args0.drop 1 else args0
  let parsed := parseGitCommand args
  let subcommand := parsed.1
  let flags := parsed.2.1
  let rest := parsed.2.2
  if subcommand = "" then true
  else if ALWAYS_DESTRUCTIVE.contains subcommand then false
  else if (match DESTRUCTIVE_FLAGS subcommand with
           | some dangerous => flags.any dangerous.contains || rest.any dangerous.contains
           | none => false) then false
  else if BRANCH_GATED_SUBCOMMANDS.contains subcommand then
    !(rest.any (fun arg => PROTECTED_BRANCHES.contains (gitTarget arg)))
  else SAFE_SUBCOMMANDS.contains subcommand

/-- Dangerous git config keys of the specification's allowlist (§4.5):
`core.fsmonitor`, `core.sshCommand`, `core.hooksPath`, `diff.external`,
`pager.*`, `alias.*`, `credential.helper`, `filter.*.clean`,
`filter.*.smudge`. -/
def isDangerousGitConfigKey (key : String) : Bool :=
  key = "core.fsmonitor" || key = "core.sshCommand" || key = "core.hooksPath" ||
  key = "diff.external" || key = "credential.helper" ||
  strStartsWith key "pager." || strStartsWith key "alias." ||
  (strStartsWith key "filter." && (strEndsWith key ".clean" || strEndsWith key ".smudge"))

/-- Key part of a `-c key=value` argument: everything before the first
`=`. -/
def gitConfigKeyOf (kv : String) : String :=
  ((strSplitChar kv '=').head?).getD kv

/-- Modelled from the spec: the pre-subcommand `-c`/`--config`
injection check of §4.5 (the array-accepting `git.ts` revision that
implements it is not in the snapshot).  Walks the flags before the
subcommand and reports whether any injected config key is in the
dangerous allowlist. -/
def gitPreFlagsDangerous : List String → Bool
  | [] => false
  | a :: rest =>
    if a = "-c" || a = "--config" then
      (match rest with
       | kv :: _ => isDangerousGitConfigKey (gitConfigKeyOf kv)
       | [] => false) || gitPreFlagsDangerous (rest.drop 1)
    else if a = "-C" || a = "--git-dir" || a = "--work-tree" then
      gitPreFlagsDangerous (rest.drop 1)
    else if strStartsWith a "-" then gitPreFlagsDangerous rest
    else false
termination_by l => l.length
decreasing_by
  · simp [List.length_drop]; omega
  · simp [List.length_drop]; omega
  · simp

/-- Modelled from the spec: the array-accepting `isGitCommandSafe` used
by the inspector registry (its implementation is not in the snapshot;
only its tests are).  §4.5: reject dangerous `-c` config injection,
reject dangerous keys given to the `config` subcommand, otherwise
classify as the in-snapshot string revision does, with the protected
branch set optionally replaced by the configured one. -/
def isGitCommandSafeArgs (args0 : List String)
    (protectedBranches : Option (List String)) : Bool :=
  let args := if args0.head? = some "git" then args0.drop 1 else args0
  if gitPreFlagsDangerous args then false
  else
    let parsed := parseGitCommand args
    let subcommand := parsed.1
    let flags := parsed.2.1
    let rest := parsed.2.2
    let branches := protectedBranches.getD PROTECTED_BRANCHES
    if subcommand = "" then true
    else if subcommand = "config" &&
            rest.any (fun a => isDangerousGitConfigKey (gitConfigKeyOf a)) then false
    else if ALWAYS_DESTRUCTIVE.contains subcommand then false
    else if (match DESTRUCTIVE_FLAGS subcommand with
             | some dangerous => flags.any dangerous.contains || rest.any dangerous.contains
             | none => false) then false
    else if BRANCH_GATED_SUBCOMMANDS.contains subcommand then
      !(rest.any (fun arg => branches.contains (gitTarget arg)))
    else SAFE_SUBCOMMANDS.contains subcommand

/-! ## Guidance ("feedback") rules (`feedback.ts`) -/

/-- JSON keywords of the json-parsing guidance rule (`JSON_KEYWORDS`
in `feedback.ts`). -/
def JSON_KEYWORDS : List String :=
  [ "json", "JSON", "json.loads", "json.load", "json.dumps", "json.dump",
    "JSON.parse", "JSON.stringify" ]

/-- String-operation keywords of the inline-code guidance rule
(`STRING_OP_KEYWORDS` in `feedback.ts`). -/
def STRING_OP_KEYWORDS : List String :=
  [ ".split(", ".strip(", ".replace(", ".join(", ".upper()", ".lower()",
    ".startswith(", ".endswith(", ".find(", ".count(",
    ".split(", ".trim(", ".replace(", ".join(", ".toUpperCase()", ".toLowerCase(",
    ".startsWith(", ".endsWith(", ".indexOf(", ".includes(",
    "re.sub(", "re.match(", "re.search(", "re.findall(" ]

/-- The `getPythonInlineCode` from `feedback.ts`: the argument after `-c`
of a `python`/`python3` invocation. -/
def getPythonInlineCode (cmd : CommandInfo) : Option String :=
  if cmd.name ≠ "python3" && cmd.name ≠ "python" then none
  else
    let cIdx := cmd.args.indexOf "-c"
    if cIdx + 1 ≥ cmd.args.length then none
    else cmd.args.get? (cIdx + 1)

/-- Flag walk of `getNodeInlineCode`: the argument after the first
`-e`, `--eval`, `-p` or `--print` that has one. -/
def nodeCodeWalk : List String → Option String
  | a :: b :: rest =>
    if a = "-e" || a = "--eval" || a = "-p" || a = "--print" then some b
    else nodeCodeWalk (b :: rest)
  | _ => none

/-- The `getNodeInlineCode` from `feedback.ts`. -/
def getNodeInlineCode (cmd : CommandInfo) : Option String :=
  if cmd.name = "node" then nodeCodeWalk cmd.args else none

/-- The `getInlineCode` from `feedback.ts`. -/
def getInlineCode (cmd : CommandInfo) : Option String :=
  (getPythonInlineCode cmd).orElse (fun _ => getNodeInlineCode cmd)

/-- Modelled from the spec: `checkCommandFeedback`, the per-command
guidance entry point used by `evaluate.ts` (the `feedback.ts` revision
exporting it is not in the snapshot; the rule bodies follow the
in-snapshot pipeline-level rules and §4.8).  The json rule runs first,
with a stronger suggestion when `curl`/`wget` is in the pipeline; the
string-operation rule runs second, skipping code that holds a JSON
keyword.  The suggestion texts are abbreviated. -/
def checkCommandFeedback (cmd : CommandInfo) (pipeline : List CommandInfo) :
    Option String :=
  match getInlineCode cmd with
  | none => none
  | some code =>
    if JSON_KEYWORDS.any (fun kw => strIncludes code kw) then
      if pipeline.any (fun c => c.name = "curl" || c.name = "wget") then
        some "hall-pass: use jq for JSON parsing"
      else
        some ("hall-pass: use jq for JSON parsing instead of inline " ++ cmd.name)
    else if STRING_OP_KEYWORDS.any (fun kw => strIncludes code kw) then
      some ("hall-pass: use shell builtins instead of inline " ++ cmd.name)
    else none

/-! ## Named inspectors (`inspectors.ts`, `src/unnamed/part_000`)

The inspectors that recurse (`find`, `xargs`) receive the evaluator
handle `ev`, exactly as the source receives `ctx.evaluate`. -/

/-- Argument walk of the `find` inspector: `-delete`/`-ok` prompt;
`-exec`/`-execdir` collect the following arguments up to `;` or `+` as
a sub-invocation and evaluate it, propagating any non-allow result;
when the clause has no terminator the walk resumes right after the
`-exec` token (as the source's index does). -/
def findWalk (ev : CommandInfo → EvalResult) : List String → EvalResult
  | [] => .allow "find: safe"
  | a :: rest =>
    if a = "-delete" || a = "-ok" then .prompt ("find: " ++ a)
    else if a = "-exec" || a = "-execdir" then
      match rest.takeWhile (fun x => x ≠ ";" && x ≠ "+") with
      | [] => .prompt "find: empty -exec"
      | h :: t =>
        match ev { name := h, args := h :: t, assigns := [] } with
        | .allow _ =>
          if (h :: t).length < rest.length then
            findWalk ev (rest.drop ((h :: t).length + 1))
          else findWalk ev rest
        | r => r
    else findWalk ev rest
termination_by l => l.length
decreasing_by
  · simp [List.length_drop]; omega
  · simp
  · simp

/-- The `find` inspector (`INSPECTORS.find`). -/
def findInspect (ev : CommandInfo → EvalResult) (cmdInfo : CommandInfo) : EvalResult :=
  findWalk ev cmdInfo.args

/-- Argument walk of the `xargs` inspector: skip two-arg xargs flags
with their values and other dash flags; the first non-flag begins the
sub-invocation, which is evaluated; with no sub-command xargs defaults
to `echo` and is allowed. -/
def xargsWalk (ev : CommandInfo → EvalResult) : List String → EvalResult
  | [] => .allow "xargs: defaults to echo"
  | a :: rest =>
    if a = "-I" || a = "-L" || a = "-n" || a = "-P" ||
       a = "-d" || a = "-s" || a = "-a" || a = "-R" then
      xargsWalk ev (rest.drop 1)
    else if strStartsWith a "-" then xargsWalk ev rest
    else ev { name := a, args := a :: rest, assigns := [] }
termination_by l => l.length
decreasing_by
  · simp [List.length_drop]; omega
  · simp

/-- The `xargs` inspector (`INSPECTORS.xargs`). -/
def xargsInspect (ev : CommandInfo → EvalResult) (cmdInfo : CommandInfo) : EvalResult :=
  xargsWalk ev (cmdInfo.args.drop 1)

/-- The `sed` inspector: prompt on `-i` or any argument starting with
`-i`. -/
def sedInspect (cmdInfo : CommandInfo) : EvalResult :=
  if cmdInfo.args.any (fun a => a = "-i" || strStartsWith a "-i") then
    .prompt "sed: -i in-place"
  else .allow "sed: read-only"

/-- Argument walk of the `awk` inspector: skip dash flags; prompt on
`system(`, `system (`, `| getline` or `|getline` in any script
argument. -/
def awkWalk : List String → EvalResult
  | [] => .allow "awk: safe"
  | a :: rest =>
    if strStartsWith a "-" then awkWalk rest
    else if strIncludes a "system(" || strIncludes a "system (" then
      .prompt "awk: system()"
    else if strIncludes a "| getline" || strIncludes a "|getline" then
      .prompt "awk: getline"
    else awkWalk rest

/-- The `awk` inspector (`INSPECTORS.awk`). -/
def awkInspect (cmdInfo : CommandInfo) : EvalResult := awkWalk cmdInfo.args

/-- Argument walk of the `kill` inspector: `-s` consumes a value and
marks the signal as seen, `-l`/`--list` are skipped, the first
`-NUM`/`-SIG` before a signal is the signal, and a remaining `1` or
`-1` PID prompts. -/
def killWalk : Bool → List String → EvalResult
  | _, [] => .allow "kill: safe"
  | signalSeen, a :: rest =>
    if a = "-s" then killWalk true (rest.drop 1)
    else if a = "-l" || a = "--list" then killWalk signalSeen rest
    else if !signalSeen && (matchDashDigits a || matchDashUpper a) then
      killWalk true rest
    else if a = "1" || a = "-1" then .prompt "kill: dangerous PID"
    else killWalk signalSeen rest
termination_by _ l => l.length
decreasing_by
  · simp [List.length_drop]; omega
  · simp
  · simp
  · simp

/-- The `kill` inspector (`INSPECTORS.kill`). -/
def killInspect (cmdInfo : CommandInfo) : EvalResult :=
  killWalk false (cmdInfo.args.drop 1)

/-- JS regex `/^\d{3,4}$/`. -/
def isDigits34 (s : String) : Bool :=
  (s.length = 3 || s.length = 4) && s.toList.all Char.isDigit

/-- Numeric value of the digit character at position `i` (the source's
`parseInt(mode[i])` on a digit). -/
def digitAt (s : String) (i : Nat) : Nat :=
  match s.toList.get? i with
  | some c => c.toNat - 48
  | none => 0

/-- JS regex `/[oa][+]w/`: some position holds `o` or `a` followed by
`+w`. -/
def hasOAplusW : List Char → Bool
  | c1 :: c2 :: c3 :: rest =>
    ((c1 = 'o' || c1 = 'a') && c2 = '+' && c3 = 'w') || hasOAplusW (c2 :: c3 :: rest)
  | _ => false
termination_by l => l.length

/-- Argument walk of the `chmod` inspector: numeric 3-4 digit modes are
normalized to four digits and prompt on a non-zero special-bits digit
or an other-bits digit of at least 6; symbolic `+s` and `[oa]+w`
prompt; literal `777`/`666` prompt. -/
def chmodWalk : List String → EvalResult
  | [] => .allow "chmod: safe"
  | a :: rest =>
    if strStartsWith a "-" then chmodWalk rest
    else
      let numericVerdict : Option EvalResult :=
        if isDigits34 a then
          let mode := if a.length = 4 then a else "0" ++ a
          if digitAt mode 0 > 0 then some (.prompt "chmod: setuid/setgid/sticky")
          else if digitAt mode 3 ≥ 6 then some (.prompt "chmod: world-writable")
          else none
        else none
      match numericVerdict with
      | some r => r
      | none =>
        if strIncludes a "+s" then .prompt "chmod: setuid/setgid"
        else if hasOAplusW a.toList then .prompt "chmod: world-writable"
        else if a = "777" || a = "666" then .prompt "chmod: unsafe mode"
        else chmodWalk rest

/-- The `chmod` inspector (`INSPECTORS.chmod`). -/
def chmodInspect (cmdInfo : CommandInfo) : EvalResult :=
  chmodWalk (cmdInfo.args.drop 1)

/-- Safe docker subcommands of the `docker` inspector. -/
def DOCKER_SAFE_SUBCMDS : List String :=
  [ "ps", "images", "logs", "inspect", "stats", "top",
    "version", "info", "network", "volume", "system",
    "build", "pull", "tag", "login", "logout",
    "compose", "container", "image" ]

/-- Volume test of the docker `run`/`exec` scan: the volume value (the
part after `=`, or the argument after the first occurrence of this
argument, as the source's `indexOf` does) is non-empty and starts with
`/:/`. -/
def dockerVolBad (args : List String) (arg : String) : Bool :=
  let vol : Option String :=
    if strIncludes arg "=" then (strSplitChar arg '=').get? 1
    else args.get? (args.indexOf arg + 1)
  match vol with
  | some s => s ≠ "" && strStartsWith s "/:/"
  | none => false

/-- Argument scan of the docker `run`/`exec` branch: `--privileged`,
host namespaces, or a root volume mount prompt. -/
def dockerScan (args : List String) : List String → Option String
  | [] => none
  | arg :: rest =>
    if arg = "--privileged" then some "docker: --privileged"
    else if arg = "--pid=host" || arg = "--net=host" || arg = "--network=host" then
      some "docker: host namespace"
    else if (strStartsWith arg "-v" || strStartsWith arg "--volume") && dockerVolBad args arg then
      some "docker: root volume mount"
    else dockerScan args rest

/-- The `docker` inspector (`INSPECTORS.docker`). -/
def dockerInspect (cmdInfo : CommandInfo) : EvalResult :=
  let args := cmdInfo.args
  if args.length < 2 then .allow "docker: no subcommand"
  else
    let subcmd := (args.get? 1).getD ""
    if DOCKER_SAFE_SUBCMDS.contains subcmd then .allow ("docker: " ++ subcmd)
    else if subcmd = "run" || subcmd = "exec" then
      match dockerScan args args with
      | some r => .prompt r
      | none => .allow ("docker: " ++ subcmd)
    else if subcmd = "stop" || subcmd = "rm" || subcmd = "rmi" || subcmd = "restart" then
      .allow ("docker: " ++ subcmd)
    else .prompt ("docker: unknown subcommand " ++ subcmd)

/-- The `node` inspector: prompt on `-e`, `--eval`, `-p`, `--print`. -/
def nodeInspect (cmdInfo : CommandInfo) : EvalResult :=
  if cmdInfo.args.any (fun a => a = "-e" || a = "--eval" || a = "-p" || a = "--print") then
    .prompt "node: inline code"
  else .allow "node: script runner"

/-- The `python` inspector: prompt on `-c`. -/
def pythonInspect (cmdInfo : CommandInfo) : EvalResult :=
  if cmdInfo.args.any (fun a => a = "-c") then .prompt "python: inline code"
  else .allow "python: script runner"

/-- The `python3` inspector: prompt on `-c`. -/
def python3Inspect (cmdInfo : CommandInfo) : EvalResult :=
  if cmdInfo.args.any (fun a => a = "-c") then .prompt "python3: inline code"
  else .allow "python3: script runner"

/-- The inspector registry (`INSPECTORS`), as keyed dispatch on the
command name; `none` when the command has no inspector. -/
def runInspector (ev : CommandInfo → EvalResult)
    (protectedBranches : Option (List String)) (c : CommandInfo) :
    Option EvalResult :=
  if c.name = "git" then
    some (if isGitCommandSafeArgs c.args protectedBranches then
            .allow "git: safe"
          else .prompt "git: unsafe")
  else if c.name = "xargs" then some (xargsInspect ev c)
  else if c.name = "source" then some (.prompt "source: executes arbitrary scripts")
  else if c.name = "find" then some (findInspect ev c)
  else if c.name = "sed" then some (sedInspect c)
  else if c.name = "awk" then some (awkInspect c)
  else if c.name = "kill" then some (killInspect c)
  else if c.name = "chmod" then some (chmodInspect c)
  else if c.name = "docker" then some (dockerInspect c)
  else if c.name = "node" then some (nodeInspect c)
  else if c.name = "python" then some (pythonInspect c)
  else if c.name = "python3" then some (python3Inspect c)
  else none

/-! ## Evaluator pipeline (`evaluate.ts`, `src/unnamed/part_000`)

The source ties the recursive knot through `ctx.evaluate`; here the
recursion carries an explicit fuel.  Every recursive call (a `find
-exec` clause or an `xargs` sub-command) has a strictly shorter
argument list than its parent, so fuel `args.length + 1` at the top
level is never exhausted; the fuel-out branch exists only to make the
recursion structural. -/

/-- The `protectedBranches` field of `createEvalContext`: the
configured set when non-empty, otherwise `none` (the inspector then
falls back to the built-in set). -/
def ctxProtectedBranches (config : HallPassConfig) : Option (List String) :=
  if config.protectedBranches.length > 0 then some config.protectedBranches
  else none

/-- The `evaluateBashCommand` from `evaluate.ts` (fueled): unwrap
transparent wrappers, prompt on a dangerous inline env assignment,
return guidance feedback, prompt on a blocked path for path-aware
commands, allow safelisted names, dispatch to the named inspectors
(which may recurse with one unit of fuel less), inspect DB clients,
and prompt on anything else. -/
def evaluateGo (m : String → String → Bool) (parse : String → Option (List String))
    (config : HallPassConfig) (pipeline : List CommandInfo) :
    Nat → CommandInfo → EvalResult
  | 0, _ => .prompt "recursion limit"
  | fuel + 1, rawCmdInfo =>
    let cmdInfo := unwrapCommand rawCmdInfo
    let name := cmdInfo.name
    match cmdInfo.assigns.find? (fun a => DANGEROUS_ENV_VARS.contains a.name) with
    | some a => .prompt ("dangerous env: " ++ a.name)
    | none =>
      match checkCommandFeedback cmdInfo pipeline with
      | some suggestion => .feedback suggestion
      | none =>
        let pathBlock : Option String :=
          if isPathAwareCommand name then
            let d := checkCommandPaths m cmdInfo config
            if !d.allowed then some d.reason else none
          else none
        match pathBlock with
        | some reason => .prompt ("path-blocked: " ++ name ++ " " ++ reason)
        | none =>
          if SAFE_COMMANDS.contains name || config.safeCommands.contains name then
            .allow ("safe: " ++ name)
          else
            match runInspector (evaluateGo m parse config pipeline fuel)
                (ctxProtectedBranches config) cmdInfo with
            | some r => r
            | none =>
              if (DB_CLIENTS ++ config.dbClients).contains name then
                dbClientInspect parse cmdInfo
              else .prompt ("not approved: " ++ name)

/-- Top-level per-invocation evaluation (the `ctx.evaluate` closure),
with fuel `args.length + 1`, which the strictly shrinking sub-command
argument lists never exhaust. -/
def evaluateBashCommand (m : String → String → Bool)
    (parse : String → Option (List String)) (config : HallPassConfig)
    (pipeline : List CommandInfo) (cmd : CommandInfo) : EvalResult :=
  evaluateGo m parse config pipeline (cmd.args.length + 1) cmd

/-- A concrete glob-matcher instance for evaluating the engine on
closed inputs; the invocations in the closed theorems below are not
path-aware, so no glob is ever consulted. -/
def noGlobMatch : String → String → Bool := fun _ _ => false

/-- A concrete SQL-parse instance for evaluating the engine on closed
inputs that contain no SQL. -/
def noSqlParse : String → Option (List String) := fun _ => none

/-- The evaluator under the zero-config defaults with the concrete
external instances above. -/
def evaluateDefault (pipeline : List CommandInfo) (cmd : CommandInfo) : EvalResult :=
  evaluateBashCommand noGlobMatch noSqlParse DEFAULT_CONFIG pipeline cmd

/-! ## Decision driver, parse stage (`hook.ts`) -/

/-- The driver's output verdict as written to stdout: `allow` carries a
`permissionDecisionReason`; a plain `ask` JSON has no reason field
(`prompt()` in `hook.ts` logs its reason only to the diagnostic file);
`feedback` is `ask` plus `additionalContext`. -/
inductive Verdict where
  | allowV (reason : String)
  | askV
  | feedbackV (context : String)
deriving DecidableEq, Repr

/-- The shfmt parse stage of the Bash path in `hook.ts` (lines
131-151), with the rest of the driver abstracted as the continuation
`rest` on the parsed AST: a non-zero shfmt exit code yields
`Ask("shfmt failed")`, unparseable stdout yields
`Ask("shfmt json failed")`, and only a parsed AST reaches the rest of
the pipeline. -/
def bashParseStage {α : Type} (rest : α → Verdict) (shfmtExitCode : Int)
    (stdoutJson : Option α) : Verdict :=
  if shfmtExitCode ≠ 0 then .askV
  else
    match stdoutJson with
    | none => .askV
    | some ast => rest ast

/-! ## Specification-side constructions used by the theorem statements -/

/-- The invocation formed by prefixing an invocation's argv with the
wrapper `nohup` (the spec's `nohup <c>`). -/
def wrapNohup (c : CommandInfo) : CommandInfo :=
  { name := "nohup", args := "nohup" :: c.args, assigns := c.assigns }

/-- Specification-side decomposition of a `find` argument list along
the inspector's walk: the arguments examined as ordinary arguments, and
the collected `-exec`/`-execdir` clauses.  A clause with a terminator
is skipped past; a clause without one is re-scanned, exactly as the
walk's index behaves. -/
def findDecomp : List String → List String × List (List String)
  | [] => ([], [])
  | a :: rest =>
    if a = "-exec" || a = "-execdir" then
      let clause := rest.takeWhile (fun x => x ≠ ";" && x ≠ "+")
      let next := if clause.length < rest.length then rest.drop (clause.length + 1) else rest
      let p := findDecomp next
      (p.1, clause :: p.2)
    else
      let p := findDecomp rest
      (a :: p.1, p.2)
termination_by l => l.length
decreasing_by
  · simp only [List.length_cons]
    split <;> simp [List.length_drop] <;> omega
  · simp

/-- The sub-invocation built from a collected `-exec` clause (the
source's `{ name: subArgs[0], args: subArgs, assigns: [] }`). -/
def clauseCmd (clause : List String) : CommandInfo :=
  { name := clause.headD "", args := clause, assigns := [] }

/-! # Theorems for the specification claims -/

/-- Claim C8: For every command string on which shell parsing fails (the
shfmt subprocess exits non-zero, or its stdout is not parseable JSON),
the driver's verdict is Ask and is never Allow. -/
theorem parse_failure_yields_ask {α : Type} (rest : α → Verdict)
    (shfmtExitCode : Int) (stdoutJson : Option α)
    (h : shfmtExitCode ≠ 0 ∨ stdoutJson = none) :
    bashParseStage rest shfmtExitCode stdoutJson = .askV ∧
    ∀ reason, bashParseStage rest shfmtExitCode stdoutJson ≠ .allowV reason := by
  rcases h with h | h
  · simp [bashParseStage, h]
  · by_cases he : shfmtExitCode = 0 <;> simp [bashParseStage, he, h]

/-- Witness for C8 at a concrete failing exit code. -/
theorem parse_failure_yields_ask_witness :
    bashParseStage (fun _ : Unit => Verdict.allowV "x") 1 (some ()) = .askV ∧
    ∀ reason, bashParseStage (fun _ : Unit => Verdict.allowV "x") 1 (some ()) ≠ .allowV reason :=
  parse_failure_yields_ask (fun _ : Unit => Verdict.allowV "x") 1 (some ())
    (Or.inl (by decide))

/-- Claim C1 (code bug): The specification (§4.9 step 8, scenario 16)
and the repository's own hook tests say an invocation whose unwrapped
name is unknown — not always-safe, not inspected, not a DB client —
yields `Pass`, encoded by the driver as empty stdout.  The evaluator in
the snapshot instead returns a prompt (`Ask`): its result type has no
`Pass` alternative at all, and `hook.ts` writes an ask JSON for it.
This evaluates the code at the failing input
`some-unknown-command --flag`. -/
theorem unknown_command_prompts_not_passes :
    evaluateDefault
      [{ name := "some-unknown-command", args := ["some-unknown-command", "--flag"], assigns := [] }]
      { name := "some-unknown-command", args := ["some-unknown-command", "--flag"], assigns := [] } =
      .prompt "not approved: some-unknown-command" := by
  simp [evaluateDefault, evaluateBashCommand, evaluateGo, unwrapCommand, TRANSPARENT_WRAPPERS,
    checkCommandFeedback, getInlineCode, getPythonInlineCode, getNodeInlineCode,
    isPathAwareCommand, runInspector, dbClientInspect, SAFE_COMMANDS, PATH_AWARE_COMMANDS,
    DB_CLIENTS, DEFAULT_CONFIG, DANGEROUS_ENV_VARS]

/-- Claim C2 (code bug): The specification (§4.5) and the repository's
own git tests require `git -c core.fsmonitor="rm -rf /" status` to be
classified unsafe (decision Ask), but the `git.ts` revision in the
snapshot has no dangerous-config check: its pre-flag skipper silently
consumes `-c` with its value, so the command classifies safe.  (Safe
keys such as `color.ui` pass as the claim says, but only because every
key passes.) -/
theorem git_config_injection_not_rejected :
    isGitCommandSafe "git -c core.fsmonitor=\"rm -rf /\" status" = true ∧
    isGitCommandSafe "git -c color.ui=auto status" = true := by
  decide

/-- Claim C4 counterexample: For `psql -c ""` the inline SQL *is*
extracted (`some ""`) and the empty string *does* classify read-only,
yet the DB-client inspector prompts: its JS truthiness test `sql ?
… : false` conflates the extracted empty string with "no SQL".  The
claim's iff (Allow iff extracted and read-only) is therefore false, as
is its conclusion that `psql -c ""` yields Allow. -/
theorem db_client_empty_sql_prompts :
    extractSqlFromArgs "psql" ["psql", "-c", ""] = some "" ∧
    isSqlReadOnly noSqlParse "" = true ∧
    dbClientInspect noSqlParse
      { name := "psql", args := ["psql", "-c", ""], assigns := [] } =
      .prompt "db client: psql" := by
  decide

/-- Claim C4 (amended): A DB-client invocation is allowed iff inline SQL
was extracted, is **non-empty**, and classifies read-only; in every
other case (including extracted-but-empty SQL) the inspector returns
the plain prompt. -/
theorem db_client_allow_iff (parse : String → Option (List String))
    (c : CommandInfo) :
    (dbClientInspect parse c = .allow ("db read-only: " ++ c.name) ↔
      ∃ s, extractSqlFromArgs c.name c.args = some s ∧ s ≠ "" ∧
        isSqlReadOnly parse s = true) ∧
    (dbClientInspect parse c = .allow ("db read-only: " ++ c.name) ∨
     dbClientInspect parse c = .prompt ("db client: " ++ c.name)) := by
  unfold dbClientInspect
  cases hsql : extractSqlFromArgs c.name c.args with
  | none => simp [jsTruthy]
  | some s =>
    by_cases hs : s = ""
    · subst hs; simp [jsTruthy]
    · by_cases hro : isSqlReadOnly parse s = true
      · simp [jsTruthy, hs, hro]
      · simp [jsTruthy, hs, hro]

/-- Claim C5: For every SQL string that is not a meta-command (its
trimmed form is non-empty and starts with none of `\`, `.`, `pragma`),
the classifier parses it and is read-only iff every top-level statement
kind is in `READ_ONLY_TYPES`; a parse failure is not read-only.  The
`.`/`pragma` hypotheses only delimit the claim's domain: the classifier
revision in the snapshot has no separate branches for them. -/
theorem sql_parse_classification (parse : String → Option (List String))
    (sql : String)
    (h1 : strTrim sql ≠ "")
    (h2 : strStartsWith (strTrim sql) "\\" = false)
    (h3 : strStartsWith (strTrim sql) "." = false)
    (h4 : strStartsWith (strToLower (strTrim sql)) "pragma" = false) :
    (parse (strTrim sql) = none → isSqlReadOnly parse sql = false) ∧
    ∀ statements, parse (strTrim sql) = some statements →
      (isSqlReadOnly parse sql = true ↔
        statements.all READ_ONLY_TYPES.contains = true) := by
  constructor
  · intro hp
    simp [isSqlReadOnly, h1, h2, hp]
  · intro statements hp
    simp [isSqlReadOnly, h1, h2, hp]

/-- Witness for C5: the semicolon-separated mixed statement
`SELECT 1; DROP TABLE t` classifies not read-only under a parse oracle
that reports its two statement kinds. -/
theorem sql_parse_classification_witness :
    isSqlReadOnly
      (fun s => if s = "SELECT 1; DROP TABLE t" then some ["select", "drop table"] else none)
      "SELECT 1; DROP TABLE t" = false := by
  have h := sql_parse_classification
    (fun s => if s = "SELECT 1; DROP TABLE t" then some ["select", "drop table"] else none)
    "SELECT 1; DROP TABLE t" (by decide) (by decide) (by decide) (by decide)
  have hiff := h.2 ["select", "drop table"] (by decide)
  cases hx : isSqlReadOnly
      (fun s => if s = "SELECT 1; DROP TABLE t" then some ["select", "drop table"] else none)
      "SELECT 1; DROP TABLE t" with
  | false => rfl
  | true => exact absurd (hiff.mp hx) (by decide)

/-! ### Trim idempotence helpers (for C3) -/

/-- The `dropWhile` is idempotent. -/
lemma dropWhile_idem (p : Char → Bool) (l : List Char) :
    (l.dropWhile p).dropWhile p = l.dropWhile p := by
  induction l with
  | nil => rfl
  | cons x xs ih => by_cases h : p x <;> simp [List.dropWhile_cons, h, ih]

/-- The head of a `dropWhile` result fails the predicate. -/
lemma head?_dropWhile_false (p : Char → Bool) :
    ∀ (l : List Char) (c : Char), (l.dropWhile p).head? = some c → p c = false := by
  intro l
  induction l with
  | nil => intro c hc; simp at hc
  | cons x xs ih =>
    intro c hc
    by_cases h : p x
    · exact ih c (by simpa [List.dropWhile_cons, h] using hc)
    · simp [List.dropWhile_cons, h] at hc
      subst hc
      simpa using h

/-- A non-empty `dropWhile` result keeps the last element. -/
lemma getLast?_dropWhile (p : Char → Bool) :
    ∀ l : List Char, l.dropWhile p ≠ [] → (l.dropWhile p).getLast? = l.getLast? := by
  intro l
  induction l with
  | nil => intro h; simp at h
  | cons x xs ih =>
    intro hne
    by_cases h : p x
    · have hxs : xs.dropWhile p ≠ [] := by simpa [List.dropWhile_cons, h] using hne
      have hde : xs ≠ [] := by
        intro h0; subst h0; simp at hxs
      rw [List.dropWhile_cons, if_pos h, ih hxs]
      cases xs with
      | nil => exact absurd rfl hde
      | cons b bs => rw [List.getLast?_cons_cons]
    · simp [List.dropWhile_cons, h]

/-- The JS trim model is idempotent. -/
lemma strTrim_idem (s : String) : strTrim (strTrim s) = strTrim s := by
  unfold strTrim
  have htl : ∀ l : List Char, (List.asString l).toList = l := fun _ => rfl
  rw [htl]
  set p := Char.isWhitespace
  set M := ((s.toList.dropWhile p).reverse.dropWhile p) with hM
  -- first trim's list is `M.reverse`; show the second trim fixes it
  have hfix : M.reverse.dropWhile p = M.reverse := by
    cases hh : M.reverse.head? with
    | none =>
      have : M.reverse = [] := by
        cases hrev : M.reverse with
        | nil => rfl
        | cons a t => rw [hrev] at hh; simp at hh
      rw [this]; rfl
    | some c =>
      have hMne : M ≠ [] := by
        intro h0
        rw [h0] at hh; simp at hh
      have hlast : M.getLast? = (s.toList.dropWhile p).reverse.getLast? :=
        getLast?_dropWhile p _ (by rw [← hM] at *; exact hMne)
      have hrevlast : (s.toList.dropWhile p).reverse.getLast? = (s.toList.dropWhile p).head? :=
        List.getLast?_reverse _
      have hhead : M.reverse.head? = M.getLast? := List.head?_reverse M
      have hc : (s.toList.dropWhile p).head? = some c := by
        rw [← hrevlast, ← hlast, ← hhead, hh]
      have hpc : p c = false := head?_dropWhile_false p _ c hc
      cases hrev : M.reverse with
      | nil => rfl
      | cons a t =>
        have : a = c := by rw [hrev] at hh; simpa using hh
        subst this
        rw [List.dropWhile_cons, if_neg (by simp [hpc])]
  rw [hfix, List.reverse_reverse, dropWhile_idem]

/-- Claim C3 (spec-modelled): For every SQL string whose trimmed form
starts with `.`, the current classifier treats it as a sqlite
dot-command: it equals the in-snapshot helper `isSqliteDotCommandSafe`,
which is read-only iff the leading word is in the dot-command
allowlist; the nine dangerous dot-commands are classified not
read-only, and `.schema` is read-only.  (The `sql.ts` revision with the
dot dispatch is not in the snapshot; `isSqlReadOnlyCurrent` models it
from §4.6 around the in-snapshot helper.) -/
theorem dot_command_classification :
    (∀ (parse : String → Option (List String)) (sql : String),
      strStartsWith (strTrim sql) "." = true →
        isSqlReadOnlyCurrent parse sql = isSqliteDotCommandSafe (strTrim sql) ∧
        (isSqlReadOnlyCurrent parse sql = true ↔
          dotCommandWord (strTrim sql) ≠ "" ∧
          SAFE_SQLITE_DOT_COMMANDS.contains (strToLower (dotCommandWord (strTrim sql))) = true)) ∧
    (∀ parse : String → Option (List String),
      ∀ s ∈ [".import", ".restore", ".open", ".output", ".save",
             ".backup", ".read", ".system", ".shell"],
        isSqlReadOnlyCurrent parse s = false) ∧
    (∀ parse : String → Option (List String),
      isSqlReadOnlyCurrent parse ".schema" = true) := by
  refine ⟨?_, ?_, ?_⟩
  · intro parse sql h
    obtain ⟨a, tl, hl, ha⟩ :
        ∃ a tl, (strTrim sql).toList = a :: tl ∧ a = '.' := by
      unfold strStartsWith at h
      cases hl : (strTrim sql).toList with
      | nil =>
        rw [hl] at h
        exact absurd h (by decide)
      | cons a tl =>
        refine ⟨a, tl, rfl, ?_⟩
        rw [hl] at h
        have hred : ".".toList.isPrefixOf (a :: tl) = ('.' == a && List.isPrefixOf [] tl) := rfl
        rw [hred] at h
        have : ('.' == a) = true := by simpa using h
        have heq : '.' = a := by simpa using this
        exact heq.symm
    subst ha
    have hne : strTrim sql ≠ "" := by
      intro h0
      rw [h0] at hl
      simp at hl
    have hnb : strStartsWith (strTrim sql) "\\" = false := by
      unfold strStartsWith
      rw [hl]
      rfl
    have hconj1 : isSqlReadOnlyCurrent parse sql = isSqliteDotCommandSafe (strTrim sql) := by
      simp [isSqlReadOnlyCurrent, hne, hnb, h]
    refine ⟨hconj1, ?_⟩
    rw [hconj1]
    have hidem : strTrim (strTrim sql) = strTrim sql := strTrim_idem sql
    unfold isSqliteDotCommandSafe
    rw [hidem]
    simp only [h]
    by_cases hw : dotCommandWord (strTrim sql) = "" <;> simp [hw]
  · intro parse s hs
    fin_cases hs <;> rfl
  · intro parse
    rfl

/-- Witness for C3 at the concrete input `.schema`. -/
theorem dot_command_classification_witness :
    isSqlReadOnlyCurrent noSqlParse ".schema" =
      isSqliteDotCommandSafe (strTrim ".schema") :=
  (dot_command_classification.1 noSqlParse ".schema" (by decide)).1

/-- Claim C6: The path check denies exactly when a `Protected` glob
matches (for any operation), or the operation is write/delete and a
`ReadOnly` glob matches, or the operation is delete and a `NoDelete`
glob matches; otherwise it allows.  The matcher argument `m` stands for
`Bun.Glob(pattern).match(resolve(expandTilde(path)))`, so a match here
is a match on the resolved path. -/
theorem path_check_characterization (m : String → String → Bool)
    (filePath : String) (operation : PathOp) (config : HallPassConfig) :
    (checkFilePath m filePath operation config).allowed = false ↔
      (∃ pat ∈ config.pathsProtected, m pat filePath = true) ∨
      ((operation = .write ∨ operation = .delete) ∧
        ∃ pat ∈ config.pathsReadOnly, m pat filePath = true) ∨
      (operation = .delete ∧
        ∃ pat ∈ config.pathsNoDelete, m pat filePath = true) := by
  have hsome : ∀ (l : List String) (r : String),
      l.find? (fun pat => m pat filePath) = some r →
      ∃ pat ∈ l, m pat filePath = true := by
    intro l r hr
    exact ⟨r, List.mem_of_find?_eq_some hr, by simpa using List.find?_some hr⟩
  have hnone : ∀ l : List String,
      l.find? (fun pat => m pat filePath) = none →
      ¬ ∃ pat ∈ l, m pat filePath = true := by
    intro l hn hex
    obtain ⟨pat, hmem, hm⟩ := hex
    exact absurd hm (by simpa using List.find?_eq_none.mp hn pat hmem)
  unfold checkFilePath
  cases hp : config.pathsProtected.find? (fun pat => m pat filePath) with
  | some r =>
    have hin := hsome _ r hp
    constructor
    · intro _
      exact Or.inl hin
    · intro _
      rfl
  | none =>
    have hnp := hnone _ hp
    cases operation with
    | read => simp [hnp]
    | write =>
      cases hr : config.pathsReadOnly.find? (fun pat => m pat filePath) with
      | some r2 =>
        have hinr := hsome _ r2 hr
        simp [hinr, hnp]
      | none =>
        have hnr := hnone _ hr
        simp [hnp, hnr]
    | delete =>
      cases hr : config.pathsReadOnly.find? (fun pat => m pat filePath) with
      | some r2 =>
        have hinr := hsome _ r2 hr
        simp [hinr, hnp]
      | none =>
        have hnr := hnone _ hr
        cases hn : config.pathsNoDelete.find? (fun pat => m pat filePath) with
        | some r3 =>
          have hinn := hsome _ r3 hn
          simp [hinn, hnp, hnr]
        | none =>
          have hnn := hnone _ hn
          simp [hnp, hnr, hnn]

/-! ### Unwrap reduction and structure lemmas (for C9, C10) -/

/-- A non-wrapper invocation is a fixed point of `unwrapCommand`. -/
lemma unwrapCommand_fix_of_none (c : CommandInfo)
    (h : TRANSPARENT_WRAPPERS c.name = none) : unwrapCommand c = c := by
  rw [unwrapCommand.eq_def, h]

/-- A wrapper whose flag skipper finds no inner command is a fixed
point. -/
lemma unwrapCommand_fix_of_skipper_none (c : CommandInfo)
    (skipper : List String → Option Nat)
    (h1 : TRANSPARENT_WRAPPERS c.name = some skipper)
    (h2 : skipper (c.args.drop 1) = none) : unwrapCommand c = c := by
  rw [unwrapCommand.eq_def]
  simp only [h1, h2]

/-- A wrapper whose inner-command index lies past the argument tail is
a fixed point. -/
lemma unwrapCommand_fix_of_ge (c : CommandInfo)
    (skipper : List String → Option Nat)
    (h1 : TRANSPARENT_WRAPPERS c.name = some skipper)
    (innerStart : Nat) (h2 : skipper (c.args.drop 1) = some innerStart)
    (h3 : innerStart ≥ (c.args.drop 1).length) : unwrapCommand c = c := by
  rw [unwrapCommand.eq_def]
  simp only [h1, h2, dif_pos h3]

/-- A wrapper whose inner argument slice is empty is a fixed point. -/
lemma unwrapCommand_fix_of_drop_nil (c : CommandInfo)
    (skipper : List String → Option Nat)
    (h1 : TRANSPARENT_WRAPPERS c.name = some skipper)
    (innerStart : Nat) (h2 : skipper (c.args.drop 1) = some innerStart)
    (h3 : ¬ innerStart ≥ (c.args.drop 1).length)
    (h4 : (c.args.drop 1).drop innerStart = []) : unwrapCommand c = c := by
  rw [unwrapCommand.eq_def]
  simp only [h1, h2, dif_neg h3]
  split <;> simp_all <;> omega

/-- One unwrapping step of a wrapper with a discernible inner
command. -/
lemma unwrapCommand_step (c : CommandInfo) (skipper : List String → Option Nat)
    (h1 : TRANSPARENT_WRAPPERS c.name = some skipper)
    (innerStart : Nat) (h2 : skipper (c.args.drop 1) = some innerStart)
    (h3 : ¬ innerStart ≥ (c.args.drop 1).length)
    (innerName : String) (innerTail : List String)
    (h4 : (c.args.drop 1).drop innerStart = innerName :: innerTail) :
    unwrapCommand c =
      unwrapCommand { name := innerName, args := innerName :: innerTail, assigns := c.assigns } := by
  conv_lhs => rw [unwrapCommand.eq_def]
  simp only [h1, h2, h4, dif_neg h3]
  split <;> simp_all

/-- Unwrapping never touches the assigns. -/
lemma unwrapCommand_assigns (c : CommandInfo) :
    (unwrapCommand c).assigns = c.assigns := by
  induction c using unwrapCommand.induct with
  | case1 x h => rw [unwrapCommand_fix_of_none x h]
  | case2 x skipper h1 rest h2 => rw [unwrapCommand_fix_of_skipper_none x skipper h1 h2]
  | case3 x skipper h1 rest innerStart h2 h3 =>
    rw [unwrapCommand_fix_of_ge x skipper h1 innerStart h2 h3]
  | case4 x skipper h1 rest innerStart h2 h3 h4 =>
    rw [unwrapCommand_fix_of_drop_nil x skipper h1 innerStart h2 h3 h4]
  | case5 x skipper h1 rest innerStart h2 h3 innerName innerTail h4 ih =>
    rw [unwrapCommand_step x skipper h1 innerStart h2 h3 innerName innerTail h4, ih]

/-- Unwrapping never lengthens the argument list. -/
lemma unwrapCommand_length_le (c : CommandInfo) :
    (unwrapCommand c).args.length ≤ c.args.length := by
  induction c using unwrapCommand.induct with
  | case1 x h => rw [unwrapCommand_fix_of_none x h]
  | case2 x skipper h1 rest h2 => rw [unwrapCommand_fix_of_skipper_none x skipper h1 h2]
  | case3 x skipper h1 rest innerStart h2 h3 =>
    rw [unwrapCommand_fix_of_ge x skipper h1 innerStart h2 h3]
  | case4 x skipper h1 rest innerStart h2 h3 h4 =>
    rw [unwrapCommand_fix_of_drop_nil x skipper h1 innerStart h2 h3 h4]
  | case5 x skipper h1 rest innerStart h2 h3 innerName innerTail h4 ih =>
    rw [unwrapCommand_step x skipper h1 innerStart h2 h3 innerName innerTail h4]
    refine le_trans ih ?_
    have hrl : rest.length = x.args.length - 1 := by
      have hrest : rest = x.args.drop 1 := rfl
      rw [hrest, List.length_drop]
    have hlen := congrArg List.length h4
    simp only [List.length_drop, List.length_cons] at hlen
    simp only [List.length_cons]
    omega

/-- Each taken unwrap step strictly shrinks the argument list: the
result is the input itself or strictly shorter. -/
lemma unwrapCommand_fix_or_lt (c : CommandInfo) :
    unwrapCommand c = c ∨ (unwrapCommand c).args.length < c.args.length := by
  induction c using unwrapCommand.induct with
  | case1 x h => exact Or.inl (unwrapCommand_fix_of_none x h)
  | case2 x skipper h1 rest h2 => exact Or.inl (unwrapCommand_fix_of_skipper_none x skipper h1 h2)
  | case3 x skipper h1 rest innerStart h2 h3 =>
    exact Or.inl (unwrapCommand_fix_of_ge x skipper h1 innerStart h2 h3)
  | case4 x skipper h1 rest innerStart h2 h3 h4 =>
    exact Or.inl (unwrapCommand_fix_of_drop_nil x skipper h1 innerStart h2 h3 h4)
  | case5 x skipper h1 rest innerStart h2 h3 innerName innerTail h4 ih =>
    refine Or.inr ?_
    rw [unwrapCommand_step x skipper h1 innerStart h2 h3 innerName innerTail h4]
    have hle := unwrapCommand_length_le
      { name := innerName, args := innerName :: innerTail, assigns := x.assigns }
    have hrl : rest.length = x.args.length - 1 := by
      have hrest : rest = x.args.drop 1 := rfl
      rw [hrest, List.length_drop]
    have hlen := congrArg List.length h4
    simp only [List.length_drop, List.length_cons] at hlen
    simp only [List.length_cons] at hle ⊢
    simp only [not_le] at h3
    omega

/-- The `unwrapCommand` is idempotent. -/
lemma unwrapCommand_idem (c : CommandInfo) :
    unwrapCommand (unwrapCommand c) = unwrapCommand c := by
  induction c using unwrapCommand.induct with
  | case1 x h =>
    have hfix := unwrapCommand_fix_of_none x h
    simp only [hfix]
  | case2 x skipper h1 rest h2 =>
    have hfix := unwrapCommand_fix_of_skipper_none x skipper h1 h2
    simp only [hfix]
  | case3 x skipper h1 rest innerStart h2 h3 =>
    have hfix := unwrapCommand_fix_of_ge x skipper h1 innerStart h2 h3
    simp only [hfix]
  | case4 x skipper h1 rest innerStart h2 h3 h4 =>
    have hfix := unwrapCommand_fix_of_drop_nil x skipper h1 innerStart h2 h3 h4
    simp only [hfix]
  | case5 x skipper h1 rest innerStart h2 h3 innerName innerTail h4 ih =>
    rw [unwrapCommand_step x skipper h1 innerStart h2 h3 innerName innerTail h4, ih]

/-- Claim C9: Prefixing a well-formed invocation (one whose `args[0]`
equals its `name`, the parser invariant) with the wrapper `nohup`
does not change the unwrapped result; nesting collapses
(`unwrap(nohup (nohup c)) = unwrap c`); and the assigns of the original
invocation carry through unchanged to the unwrapped result. -/
theorem wrapper_roundtrip (c : CommandInfo) (h : c.args.head? = some c.name) :
    unwrapCommand (wrapNohup c) = unwrapCommand c ∧
    unwrapCommand (wrapNohup (wrapNohup c)) = unwrapCommand c ∧
    (unwrapCommand c).assigns = c.assigns := by
  have hstep : ∀ d : CommandInfo, d.args.head? = some d.name →
      unwrapCommand (wrapNohup d) = unwrapCommand d := by
    intro d hd
    cases harg : d.args with
    | nil => rw [harg] at hd; simp at hd
    | cons a t =>
      rw [harg] at hd
      have ha : a = d.name := by simpa using hd
      have h1 : TRANSPARENT_WRAPPERS (wrapNohup d).name = some nohupSkip := by
        simp [wrapNohup, TRANSPARENT_WRAPPERS]
      have h2 : nohupSkip ((wrapNohup d).args.drop 1) = some 0 := rfl
      have h3 : ¬ (0 : Nat) ≥ ((wrapNohup d).args.drop 1).length := by
        simp [wrapNohup, harg]
      have h4 : ((wrapNohup d).args.drop 1).drop 0 = a :: t := by
        simp [wrapNohup, harg]
      rw [unwrapCommand_step (wrapNohup d) nohupSkip h1 0 h2 h3 a t h4]
      have heq : ({ name := a, args := a :: t, assigns := (wrapNohup d).assigns } : CommandInfo) = d := by
        cases d
        simp_all [wrapNohup]
      rw [heq]
  refine ⟨hstep c h, ?_, unwrapCommand_assigns c⟩
  rw [hstep (wrapNohup c) (by simp [wrapNohup]), hstep c h]

/-- Witness for C9 at a concrete well-formed invocation with an
assign. -/
theorem wrapper_roundtrip_witness :
    unwrapCommand (wrapNohup ⟨"bun", ["bun", "x"], [⟨"A", "B"⟩]⟩) =
      unwrapCommand ⟨"bun", ["bun", "x"], [⟨"A", "B"⟩]⟩ ∧
    unwrapCommand (wrapNohup (wrapNohup ⟨"bun", ["bun", "x"], [⟨"A", "B"⟩]⟩)) =
      unwrapCommand ⟨"bun", ["bun", "x"], [⟨"A", "B"⟩]⟩ ∧
    (unwrapCommand (⟨"bun", ["bun", "x"], [⟨"A", "B"⟩]⟩ : CommandInfo)).assigns =
      [⟨"A", "B"⟩] :=
  wrapper_roundtrip ⟨"bun", ["bun", "x"], [⟨"A", "B"⟩]⟩ (by decide)

/-- Claim C10: `unwrapCommand` is total (it is accepted by well-founded
recursion on the argument-list length: every recursive step passes a
strict suffix of the wrapper's arguments, so the list strictly
shrinks); whenever it changes its input the argument list is strictly
shorter, and it is idempotent. -/
theorem unwrap_terminates_idempotent (c : CommandInfo) :
    unwrapCommand (unwrapCommand c) = unwrapCommand c ∧
    (unwrapCommand c ≠ c → (unwrapCommand c).args.length < c.args.length) := by
  refine ⟨unwrapCommand_idem c, ?_⟩
  intro hne
  rcases unwrapCommand_fix_or_lt c with hfix | hlt
  · exact absurd hfix hne
  · exact hlt

/-- Witness for C10 at a concrete wrapper invocation that unwraps. -/
theorem unwrap_terminates_idempotent_witness :
    unwrapCommand (unwrapCommand { name := "nohup", args := ["nohup", "ls"], assigns := [] }) =
      unwrapCommand { name := "nohup", args := ["nohup", "ls"], assigns := [] } ∧
    (unwrapCommand { name := "nohup", args := ["nohup", "ls"], assigns := [] }).args.length <
      ({ name := "nohup", args := ["nohup", "ls"], assigns := [] } : CommandInfo).args.length :=
  ⟨(unwrap_terminates_idempotent { name := "nohup", args := ["nohup", "ls"], assigns := [] }).1,
   (unwrap_terminates_idempotent { name := "nohup", args := ["nohup", "ls"], assigns := [] }).2
     (by simp [unwrapCommand, TRANSPARENT_WRAPPERS, nohupSkip])⟩

lemma findWalk_allow_iff (ev : CommandInfo → EvalResult) :
    ∀ l : List String,
      ((findWalk ev l).isAllow = true ↔
        ((∀ a ∈ (findDecomp l).1, a ≠ "-delete" ∧ a ≠ "-ok") ∧
         ∀ clause ∈ (findDecomp l).2,
           clause ≠ [] ∧ (ev (clauseCmd clause)).isAllow = true)) := by
  intro l
  induction l using findWalk.induct ev with
  | case1 =>
    simp [findWalk, findDecomp, EvalResult.isAllow]
  | case2 a rest hflag =>
    have ha : a = "-delete" ∨ a = "-ok" := by simpa using hflag
    rw [findWalk.eq_def, findDecomp.eq_def]
    rcases ha with rfl | rfl <;>
      simp [EvalResult.isAllow, List.forall_mem_cons]
  | case3 a rest hflag hexec hcl =>
    rw [findWalk.eq_def, findDecomp.eq_def]
    simp only [hflag, hexec, hcl]
    simp [EvalResult.isAllow, List.forall_mem_cons]
  | case4 a rest hflag hexec innerName innerTail hcl reason hev hlt ih =>
    rw [findWalk.eq_def, findDecomp.eq_def]
    simp only [List.length_cons] at ih hlt
    simp only [hflag, hexec, hcl, hev, hlt, if_true, if_false, List.length_cons]
    simp only [List.forall_mem_cons]
    have hclauseOK : ((innerName :: innerTail) ≠ [] ∧
        (ev (clauseCmd (innerName :: innerTail))).isAllow = true) := by
      refine ⟨by simp, ?_⟩
      simp [clauseCmd, hev, EvalResult.isAllow]
    constructor
    · intro hL
      rcases ih.mp hL with ⟨hA, hB⟩
      exact ⟨hA, hclauseOK, hB⟩
    · rintro ⟨hA, _, hB⟩
      exact ih.mpr ⟨hA, hB⟩
  | case5 a rest hflag hexec innerName innerTail hcl reason hev hlt ih =>
    rw [findWalk.eq_def, findDecomp.eq_def]
    simp only [List.length_cons] at ih hlt
    simp only [hflag, hexec, hcl, hev, hlt, if_true, if_false, List.length_cons]
    simp only [List.forall_mem_cons]
    have hclauseOK : ((innerName :: innerTail) ≠ [] ∧
        (ev (clauseCmd (innerName :: innerTail))).isAllow = true) := by
      refine ⟨by simp, ?_⟩
      simp [clauseCmd, hev, EvalResult.isAllow]
    constructor
    · intro hL
      rcases ih.mp hL with ⟨hA, hB⟩
      exact ⟨hA, hclauseOK, hB⟩
    · rintro ⟨hA, _, hB⟩
      exact ih.mpr ⟨hA, hB⟩
  | case6 a rest hflag hexec innerName innerTail hcl hna =>
    have hcc : clauseCmd (innerName :: innerTail) =
        { name := innerName, args := innerName :: innerTail, assigns := [] } := by
      simp [clauseCmd]
    rw [findWalk.eq_def, findDecomp.eq_def]
    simp only [hflag, hexec, hcl]
    cases hev : ev { name := innerName, args := innerName :: innerTail, assigns := [] } with
    | allow r => exact absurd hev (fun hh => hna r hh)
    | prompt r => simp [hev, hcc, EvalResult.isAllow, List.forall_mem_cons]
    | feedback s => simp [hev, hcc, EvalResult.isAllow, List.forall_mem_cons]
  | case7 a rest hflag hexec ih =>
    have hane : a ≠ "-delete" ∧ a ≠ "-ok" := by
      constructor <;> intro h0 <;> subst h0 <;> simp at hflag
    rw [findWalk.eq_def, findDecomp.eq_def]
    simp only [hflag, hexec]
    simp [List.forall_mem_cons, hane, ih]


lemma findWalk_shape (ev : CommandInfo → EvalResult) :
    ∀ l : List String,
      findWalk ev l = .allow "find: safe" ∨
      (∃ a ∈ (findDecomp l).1, (a = "-delete" ∨ a = "-ok") ∧
        findWalk ev l = .prompt ("find: " ++ a)) ∨
      (∃ clause ∈ (findDecomp l).2, clause = [] ∧
        findWalk ev l = .prompt "find: empty -exec") ∨
      (∃ clause ∈ (findDecomp l).2, findWalk ev l = ev (clauseCmd clause)) := by
  intro l
  induction l using findWalk.induct ev with
  | case1 =>
    left
    simp [findWalk]
  | case2 a rest hflag =>
    have ha : a = "-delete" ∨ a = "-ok" := by simpa using hflag
    right; left
    refine ⟨a, ?_, ha, ?_⟩
    · rw [findDecomp.eq_def]
      rcases ha with rfl | rfl <;> simp
    · rw [findWalk.eq_def]
      rcases ha with rfl | rfl <;> simp
  | case3 a rest hflag hexec hcl =>
    right; right; left
    refine ⟨[], ?_, rfl, ?_⟩
    · rw [findDecomp.eq_def]
      simp only [hexec, if_true]
      simp only [hcl]
      simp
    · rw [findWalk.eq_def]
      simp only [hflag, hexec, hcl]
      simp
  | case4 a rest hflag hexec innerName innerTail hcl reason hev hlt ih =>
    simp only [List.length_cons] at ih hlt
    have hwalk : findWalk ev (a :: rest) =
        findWalk ev (List.drop (innerTail.length + 1 + 1) rest) := by
      rw [findWalk.eq_def]
      simp only [hflag, hexec, hcl, hev, hlt, if_true, if_false, List.length_cons]
      simp
    have hdec : findDecomp (a :: rest) =
        ((findDecomp (List.drop (innerTail.length + 1 + 1) rest)).1,
         (innerName :: innerTail) ::
           (findDecomp (List.drop (innerTail.length + 1 + 1) rest)).2) := by
      rw [findDecomp.eq_def]
      simp only [hexec, if_true]
      simp only [hcl]
      simp only [List.length_cons, hlt, if_true]
    rw [hwalk, hdec]
    rcases ih with h | ⟨x, hm, hx⟩ | ⟨cl, hm, hx⟩ | ⟨cl, hm, hx⟩
    · exact Or.inl h
    · exact Or.inr (Or.inl ⟨x, hm, hx⟩)
    · exact Or.inr (Or.inr (Or.inl ⟨cl, List.mem_cons_of_mem _ hm, hx⟩))
    · exact Or.inr (Or.inr (Or.inr ⟨cl, List.mem_cons_of_mem _ hm, hx⟩))
  | case5 a rest hflag hexec innerName innerTail hcl reason hev hlt ih =>
    simp only [List.length_cons] at ih hlt
    have hwalk : findWalk ev (a :: rest) = findWalk ev rest := by
      rw [findWalk.eq_def]
      simp only [hflag, hexec, hcl, hev, hlt, if_true, if_false, List.length_cons]
      simp
    have hdec : findDecomp (a :: rest) =
        ((findDecomp rest).1, (innerName :: innerTail) :: (findDecomp rest).2) := by
      rw [findDecomp.eq_def]
      simp only [hexec, if_true]
      simp only [hcl]
      simp only [List.length_cons, hlt, if_false]
    rw [hwalk, hdec]
    rcases ih with h | ⟨x, hm, hx⟩ | ⟨cl, hm, hx⟩ | ⟨cl, hm, hx⟩
    · exact Or.inl h
    · exact Or.inr (Or.inl ⟨x, hm, hx⟩)
    · exact Or.inr (Or.inr (Or.inl ⟨cl, List.mem_cons_of_mem _ hm, hx⟩))
    · exact Or.inr (Or.inr (Or.inr ⟨cl, List.mem_cons_of_mem _ hm, hx⟩))
  | case6 a rest hflag hexec innerName innerTail hcl hna =>
    right; right; right
    have hcc : clauseCmd (innerName :: innerTail) =
        { name := innerName, args := innerName :: innerTail, assigns := [] } := by
      simp [clauseCmd]
    refine ⟨innerName :: innerTail, ?_, ?_⟩
    · rw [findDecomp.eq_def]
      simp only [hexec, if_true]
      simp only [hcl]
      simp
    · rw [findWalk.eq_def, hcc]
      cases hev : ev { name := innerName, args := innerName :: innerTail, assigns := [] } with
      | allow r => exact absurd hev (fun hh => hna r hh)
      | prompt r =>
        simp only [hflag, hexec, hcl, hev]
        simp
      | feedback s =>
        simp only [hflag, hexec, hcl, hev]
        simp
  | case7 a rest hflag hexec ih =>
    have hwalk : findWalk ev (a :: rest) = findWalk ev rest := by
      rw [findWalk.eq_def]
      simp only [hflag, hexec, if_false]
      simp
    have hdec : findDecomp (a :: rest) =
        (a :: (findDecomp rest).1, (findDecomp rest).2) := by
      rw [findDecomp.eq_def]
      simp only [hexec, if_false]
      simp
    rw [hwalk, hdec]
    rcases ih with h | ⟨x, hm, hx⟩ | ⟨cl, hm, hx⟩ | ⟨cl, hm, hx⟩
    · exact Or.inl h
    · exact Or.inr (Or.inl ⟨x, List.mem_cons_of_mem _ hm, hx⟩)
    · exact Or.inr (Or.inr (Or.inl ⟨cl, hm, hx⟩))
    · exact Or.inr (Or.inr (Or.inr ⟨cl, hm, hx⟩))


/-- Claim C7 counterexample: The claim says any `-delete` argument makes
the find inspector return Ask, but a `-delete` lying inside a
terminated `-exec` clause is consumed as part of the sub-command: for
`find -exec echo -delete ;` (whose sub-command `echo -delete` is
allowed by the safelist) the inspector, running over the full default
evaluator, returns Allow although `-delete` is among the arguments. -/
theorem find_delete_inside_exec_clause_allows :
    findInspect (evaluateDefault [⟨"find", ["find", "-exec", "echo", "-delete", ";"], []⟩])
      ⟨"find", ["find", "-exec", "echo", "-delete", ";"], []⟩ = .allow "find: safe" ∧
    "-delete" ∈ (⟨"find", ["find", "-exec", "echo", "-delete", ";"], []⟩ : CommandInfo).args := by
  constructor
  · simp [findInspect, findWalk, evaluateDefault, evaluateBashCommand, evaluateGo,
      unwrapCommand, TRANSPARENT_WRAPPERS, checkCommandFeedback, getInlineCode,
      getPythonInlineCode, getNodeInlineCode, isPathAwareCommand, runInspector,
      SAFE_COMMANDS, PATH_AWARE_COMMANDS, DB_CLIENTS, DEFAULT_CONFIG, DANGEROUS_ENV_VARS]
  · decide

/-- Claim C7 (amended): The find inspector returns Ask when `-delete` or
`-ok` is seen while walking the arguments *outside* collected
`-exec`/`-execdir` clauses; each clause (the arguments up to the
terminating `;` or `+`) forms a sub-invocation that is evaluated
through the evaluator handle, and any sub-decision other than Allow is
propagated as the result; the inspector returns Allow exactly when no
`-delete`/`-ok` is walked outside clauses and every clause is non-empty
and evaluates to Allow.  (A `-delete`/`-ok` inside a terminated clause
belongs to the sub-command and does not itself force Ask.)  Every
result is the final Allow, one of the inspector's own prompts, or a
propagated clause sub-result. -/
theorem find_inspector_characterization (ev : CommandInfo → EvalResult)
    (cmdInfo : CommandInfo) :
    ((findInspect ev cmdInfo).isAllow = true ↔
      ((∀ a ∈ (findDecomp cmdInfo.args).1, a ≠ "-delete" ∧ a ≠ "-ok") ∧
       ∀ clause ∈ (findDecomp cmdInfo.args).2,
         clause ≠ [] ∧ (ev (clauseCmd clause)).isAllow = true)) ∧
    (findInspect ev cmdInfo = .allow "find: safe" ∨
     (∃ a ∈ (findDecomp cmdInfo.args).1, (a = "-delete" ∨ a = "-ok") ∧
       findInspect ev cmdInfo = .prompt ("find: " ++ a)) ∨
     (∃ clause ∈ (findDecomp cmdInfo.args).2, clause = [] ∧
       findInspect ev cmdInfo = .prompt "find: empty -exec") ∨
     (∃ clause ∈ (findDecomp cmdInfo.args).2,
       findInspect ev cmdInfo = ev (clauseCmd clause))) :=
  ⟨findWalk_allow_iff ev cmdInfo.args, findWalk_shape ev cmdInfo.args⟩

end HallPass
